import Mathlib

/-!
Verification development for the `wordlirst` wordlist generator
(sources: `src/main.rs`, `src/generate.rs`).

Shallow embedding conventions:
* A Rust `String` is a `List Char`; `String::len()` (a UTF-8 byte count)
  is `utf8Len`.
* Fallible-by-panic code (the source panics via `unwrap`, `expect`, and
  integer division by zero; its functions have no error-return channel)
  is embedded in `Except RunErr`, where `RunErr.panicked` models a panic.
* `walk_regex` recurses on an explicit fuel argument so that it is
  structurally recursive; fuel exhaustion is the separate error
  `RunErr.outOfFuel`, and every theorem supplies sufficient fuel
  (the recursion depth of the source equals the AST depth).
* `u32` casts from the source (`gen.max_length as u32`, `{...} as u32`)
  and the Repetition arm's u32 arithmetic are embedded with wrapping
  semantics as `% 4294967296` (a Rust release build; a debug build would
  abort on the one overflowing addition, reachable only at explicit
  repetition maxima within `shortest` of `u32::MAX`).
* Diagnostic `println!` calls have no observable effect on the produced
  word lists and are dropped.
-/

/-- Outcome of running embedded Rust code that can panic: the source
functions return plain values and abort via panic on failure. -/
inductive RunErr where
  | panicked
  | outOfFuel
deriving DecidableEq, Repr

/-- UTF-8 byte size of one scalar value, as in Rust's `char::len_utf8`. -/
def charUtf8Size (c : Char) : Nat :=
  if c.toNat ≤ 0x7F then 1
  else if c.toNat ≤ 0x7FF then 2
  else if c.toNat ≤ 0xFFFF then 3
  else 4

/-- Rust `String::len()`: the UTF-8 byte length of the string. -/
def utf8Len (s : List Char) : Nat := (s.map charUtf8Size).sum

/-- Strict UTF-8 decoding of a byte sequence, as in Rust's
`std::str::from_utf8` / `String::from_utf8`: rejects stray continuation
bytes, overlong encodings, surrogates and values above `0x10FFFF`. -/
def utf8Decode : List Nat → Option (List Char)
  | [] => some []
  | b :: rest =>
    if b < 0x80 then
      match utf8Decode rest with
      | some cs => some (Char.ofNat b :: cs)
      | none => none
    else if b < 0xC2 then none
    else if b < 0xE0 then
      match rest with
      | b1 :: rest1 =>
        if 0x80 ≤ b1 ∧ b1 < 0xC0 then
          match utf8Decode rest1 with
          | some cs => some (Char.ofNat ((b - 0xC0) * 64 + (b1 - 0x80)) :: cs)
          | none => none
        else none
      | [] => none
    else if b < 0xF0 then
      match rest with
      | b1 :: b2 :: rest2 =>
        if (0x80 ≤ b1 ∧ b1 < 0xC0) ∧ (0x80 ≤ b2 ∧ b2 < 0xC0)
            ∧ (b = 0xE0 → 0xA0 ≤ b1) ∧ (b = 0xED → b1 < 0xA0) then
          match utf8Decode rest2 with
          | some cs =>
              some (Char.ofNat ((b - 0xE0) * 4096 + (b1 - 0x80) * 64 + (b2 - 0x80)) :: cs)
          | none => none
        else none
      | _ => none
    else if b < 0xF5 then
      match rest with
      | b1 :: b2 :: b3 :: rest3 =>
        if (0x80 ≤ b1 ∧ b1 < 0xC0) ∧ (0x80 ≤ b2 ∧ b2 < 0xC0) ∧ (0x80 ≤ b3 ∧ b3 < 0xC0)
            ∧ (b = 0xF0 → 0x90 ≤ b1) ∧ (b = 0xF4 → b1 < 0x90) then
          match utf8Decode rest3 with
          | some cs =>
              some (Char.ofNat ((b - 0xF0) * 262144 + (b1 - 0x80) * 4096
                     + (b2 - 0x80) * 64 + (b3 - 0x80)) :: cs)
          | none => none
        else none
      | _ => none
    else none

/-- A character substitution pair (`generate.rs`, `ReplacePair(char, char)`);
`fromc`/`toc` embed the accessors `from()`/`to()`. -/
structure ReplacePair where
  fromc : Char
  toc : Char
deriving DecidableEq, Repr

/-- The per-run configuration (`main.rs`, `struct Generator`). -/
structure Generator where
  min_length : Nat
  max_length : Nat
  transforms : List ReplacePair
  dictionary : List (List Char)
  terms : List (List Char)

/-- The regex HIR shape walked by `walk_regex` (`regex_syntax::hir::Hir`,
one constructor per `HirKind` case matched by the source; `look` covers
both `Look::End` and the other look-around markers, which the source
treats identically apart from diagnostics). Literal bytes are kept as raw
bytes (`Box<[u8]>` in the source); class ranges are `(start, end)` scalar
value pairs. -/
inductive Hir where
  | empty
  | look
  | lit (bytes : List Nat)
  | cls (ranges : List (Nat × Nat))
  | clsBytes (ranges : List (Nat × Nat))
  | rep (min : Nat) (max : Option Nat) (sub : Hir)
  | capture (sub : Hir)
  | concat (subs : List Hir)
  | alt (subs : List Hir)

/-- `itertools`' `multi_cartesian_product` on a nonempty collection of
iterators: ordered tuples with the last component varying fastest. -/
def mcpGo : List (List α) → List (List α)
  | [] => [[]]
  | l :: ls => l.flatMap (fun x => (mcpGo ls).map (x :: ·))

/-- `itertools::Itertools::multi_cartesian_product`: on an empty
collection of iterators it yields no element at all (its `iterate_last`
returns `false` immediately on an empty iterator list). -/
def multiCartesianProduct (ls : List (List α)) : List (List α) :=
  match ls with
  | [] => []
  | l :: ls' => mcpGo (l :: ls')

/-- `regex_syntax`'s `ClassUnicode::is_ascii`: the maximum of the class
(the end of the last of its sorted ranges) is at most `0x7F`. -/
def cls_is_ascii (rs : List (Nat × Nat)) : Bool :=
  match rs.getLast? with
  | none => true
  | some r => decide (r.2 ≤ 0x7F)

/-- The candidate strings of an all-ASCII character class: one
single-character string per code point of each range, in range order
(`walk_regex`, `HirKind::Class(Class::Unicode)` arm, ASCII branch). -/
def cls_chars (rs : List (Nat × Nat)) : List (List Char) :=
  rs.flatMap (fun r => (List.range' r.1 (r.2 + 1 - r.1)).map (fun n => [Char.ofNat n]))

/-- The `% 2^32`-truncated length of the shortest string of the pool
(`walk_regex`, Repetition arm: `words.iter().min_by_key(|s| s.len())`,
defaulted to `0` for an empty pool, then cast `as u32`). -/
def pool_shortest (pool : List (List Char)) : Nat :=
  ((pool.map utf8Len).min?.getD 0) % 4294967296

/-- The last repetition count attempted by the Repetition arm:
`(max + shortest - 1) / shortest` computed in u32, where `max` is the
node's explicit max (a u32) if present and otherwise
`gen.max_length as u32`.  The u32 arithmetic is embedded with wrapping
(`% 2^32`) semantics, those of a Rust release build; for `shortest ≥ 1`
the composed wraps of the source's add-then-subtract equal one
`% 2^32` of the exact numerator.  (A debug build would instead abort on
the addition overflow, which is reachable only at explicit maxima
within `shortest` of `u32::MAX`; at such maxima the wrapped numerator
is below `shortest`, the bound becomes `0` and nothing is emitted.) -/
def rep_last (mx : Option Nat) (g : Generator) (pool : List (List Char)) : Nat :=
  (((match mx with
     | some m => m % 4294967296
     | none => g.max_length % 4294967296) + pool_shortest pool - 1) % 4294967296)
    / pool_shortest pool

/-- The body of one `for x in coll { ... walk_regex(x, gen) ... }` pass
over child nodes, collecting each child's result and propagating a panic
of any child (used by the Concat and Alternation arms). -/
def walk_list (rec : Hir → Generator → Except RunErr (List (List Char)))
    (g : Generator) : List Hir → Except RunErr (List (List (List Char)))
  | [] => .ok []
  | x :: xs =>
    match rec x g with
    | .error e => .error e
    | .ok group =>
      match walk_list rec g xs with
      | .error e => .error e
      | .ok groups => .ok (group :: groups)

/-- One step of `walk_regex` (`main.rs`), with `rec` standing for the
recursive calls.  Panics of the source are `.error .panicked`:
`std::str::from_utf8(..).unwrap()` on undecodable literal bytes, and the
division by zero in `(max + shortest - 1) / shortest` when the sub-pool
is empty or its shortest member is the empty string. -/
def walk_regex_body (rec : Hir → Generator → Except RunErr (List (List Char)))
    (ast : Hir) (g : Generator) : Except RunErr (List (List Char)) :=
  match ast with
  | .look => .ok []
  | .empty => .ok []
  | .lit bytes =>
    if bytes = [0x25, 0x74] then .ok g.terms
    else if bytes = [0x25, 0x77] then .ok g.dictionary
    else
      match utf8Decode bytes with
      | some s => .ok [s]
      | none => .error .panicked
  | .cls rs =>
    .ok (if cls_is_ascii rs then cls_chars rs else [])
  | .clsBytes _ => .ok []
  | .rep mn mx sub =>
    match rec sub g with
    | .error e => .error e
    | .ok words =>
      if pool_shortest words = 0 then .error .panicked
      else
        .ok ((if mn = 0 then [[]] else []) ++
          (List.range' mn (rep_last mx g words + 1 - mn)).flatMap (fun i =>
            (multiCartesianProduct (List.replicate i words)).filterMap (fun ws =>
              if utf8Len ws.flatten ≤ g.max_length then some ws.flatten else none)))
  | .capture sub => rec sub g
  | .concat subs =>
    match walk_list rec g subs with
    | .error e => .error e
    | .ok groups =>
      .ok ((multiCartesianProduct groups).filterMap (fun ws =>
        if (ws.map utf8Len).sum ≤ g.max_length then some ws.flatten else none))
  | .alt subs =>
    match walk_list rec g subs with
    | .error e => .error e
    | .ok groups => .ok groups.flatten

/-- `walk_regex` (`main.rs`): recursive expansion of an AST node into its
candidate strings, fuelled by the recursion depth. -/
def walk_regex : Nat → Hir → Generator → Except RunErr (List (List Char))
  | 0, _, _ => .error .outOfFuel
  | fuel + 1, ast, g => walk_regex_body (walk_regex fuel) ast g

/-- `regex_words` (`main.rs`): parse (the parse itself is the external
`regex_syntax::parse`, so its result is taken as an `Option Hir` input;
`None` models a pattern the upstream grammar rejects, on which the
source panics via `.expect("regex is invalid")`), walk the AST, then
keep only words of length at least `min_length`. -/
def regex_words (fuel : Nat) (parsed : Option Hir) (g : Generator) :
    Except RunErr (List (List Char)) :=
  match parsed with
  | none => .error .panicked
  | some ast =>
    match walk_regex fuel ast g with
    | .error e => .error e
    | .ok possible => .ok (possible.filter (fun w => g.min_length ≤ utf8Len w))

/-- `calculate_total_creations` (`main.rs` test module): the closed-form
count `Σ_L Σ_{i=1}^{L-1} pool1^(L-i) * pool2^i` over `L` in the given
inclusive range. -/
def calculate_total_creations (pool1_size pool2_size lo hi : Nat) : Nat :=
  ((List.range' lo (hi + 1 - lo)).map (fun string_length =>
    ((List.range' 1 (string_length - 1)).map (fun i =>
      pool1_size ^ (string_length - i) * pool2_size ^ i)).sum)).sum

/-- Standard ordered cartesian product of a list of pools, written from
the spec's words: one element from each pool, in enumeration order with
the last pool varying fastest. -/
def listProd (ls : List (List α)) : List (List α) :=
  ls.foldr (fun l acc => l.flatMap (fun x => acc.map (x :: ·))) [[]]

/-- Spec-side description of the Concat node (spec §4.1): the full
cartesian product of the sub-results, a combination kept iff its total
length is at most `maxLen`, pruned at concatenation time. -/
def spec_concat_product (groups : List (List (List Char))) (maxLen : Nat) :
    List (List Char) :=
  (listProd groups).filterMap (fun ws =>
    if (ws.map utf8Len).sum ≤ maxLen then some ws.flatten else none)

/-- The capitalization stage of `generate_permutations` (`generate.rs`):
lower-case the word, then for every `i` in `0..(1 << word.len())` (a
byte-length-based mask count) build the variant whose `j`-th character
is ASCII-upper-cased iff `(i >> j) & 1 == 1`.  `Char.toLower`/`Char.toUpper`
are ASCII-only, exactly like `to_ascii_uppercase`; Rust's
`str::to_lowercase` also lowers non-ASCII letters, a difference without
effect on ASCII input or on already-lowercase input. -/
def cap_variants (w : List Char) : List (List Char) :=
  let word := w.map Char.toLower
  (List.range (1 <<< utf8Len word)).map (fun i =>
    word.enum.map (fun jc => if (i >>> jc.1) &&& 1 = 1 then jc.2.toUpper else jc.2))

/-- Spec-side description of the capitalization stage (spec §4.2): for a
lower-cased string of length `n` (in characters), exactly `2^n` variants
indexed by the `n`-bit masks in increasing numeric order, a set bit `j`
upper-casing character `j`. -/
def spec_cap_variants (w : List Char) : List (List Char) :=
  let word := w.map Char.toLower
  (List.range (2 ^ word.length)).map (fun i =>
    word.enum.map (fun jc => if Nat.testBit i jc.1 then jc.2.toUpper else jc.2))

/-- `add_transformations` (`generate.rs`): process characters left to
right; every partial candidate spawns one successor with the character
kept plus one successor per replacement pair whose `from` character
equals it.  Returns the completed candidate list (the source writes each
one as a line to the sink). -/
def add_transformations (word : List Char) (replacements : List ReplacePair) :
    List (List Char) :=
  word.foldl (fun current c =>
    current.flatMap (fun combo =>
      (combo ++ [c]) :: replacements.filterMap (fun r =>
        if c = r.fromc then some (combo ++ [r.toc]) else none)))
    [[]]

/-- The per-position choice list of the substitution stage, from the
spec's words: keep the character, or apply exactly one matching
substitution pair, in pair-list order. -/
def subst_choices (replacements : List ReplacePair) (c : Char) : List Char :=
  c :: (replacements.filter (fun r => c = r.fromc)).map ReplacePair.toc

/-- `generate_permutations` (`generate.rs`): every capitalization variant,
each expanded through `add_transformations`, in that nesting order. -/
def generate_permutations (w : List Char) (replacements : List ReplacePair) :
    List (List Char) :=
  (cap_variants w).flatMap (fun v => add_transformations v replacements)

/-- `generate_concats` (`generate.rs`): for each pool entry, skip it if
it or the extended accumulated string would exceed `max_length`,
otherwise emit the permutations of the extension (when it reaches
`min_length`) and recurse on the extension over the whole pool.  The
source recursion carries no termination token; here each source-level
recursive call (the one that grows `term`) consumes one unit of fuel and
`.none` reports fuel exhaustion, so the source call terminates iff some
finite fuel makes the embedding return `.some`.  Returns the emitted
lines in order. -/
def generate_concats (min_length max_length : Nat) (transforms : List ReplacePair)
    (pool : List (List Char)) : Nat → List Char → List (List Char) →
    Option (List (List Char))
  | _, _, [] => some []
  | fuel, term, term1 :: rest =>
    if utf8Len term1 > max_length then
      generate_concats min_length max_length transforms pool fuel term rest
    else if utf8Len (term ++ term1) > max_length then
      generate_concats min_length max_length transforms pool fuel term rest
    else
      match fuel with
      | 0 => none
      | fuel' + 1 =>
        match generate_concats min_length max_length transforms pool fuel'
                (term ++ term1) pool,
              generate_concats min_length max_length transforms pool (fuel' + 1) term rest with
        | some recOut, some restOut =>
          some ((if utf8Len (term ++ term1) ≥ min_length then
                  generate_permutations (term ++ term1) transforms
                 else []) ++ recOut ++ restOut)
        | _, _ => none
termination_by fuel _ rest => (fuel, rest.length)

/-! ### Helper lemmas about the cartesian-product combinators -/

theorem mcpGo_eq_listProd (ls : List (List α)) : mcpGo ls = listProd ls := by
  induction ls with
  | nil => rfl
  | cons l ls ih => simp [mcpGo, listProd, List.foldr] at ih ⊢; rw [ih]

theorem multiCartesianProduct_ne_nil (l : List α) (ls : List (List α)) :
    multiCartesianProduct (l :: ls) = mcpGo (l :: ls) := rfl

theorem mem_mcpGo {ls : List (List α)} {ws : List α} :
    ws ∈ mcpGo ls ↔ List.Forall₂ (fun w l => w ∈ l) ws ls := by
  induction ls generalizing ws with
  | nil =>
    simp only [mcpGo, List.mem_singleton]
    constructor
    · rintro rfl; exact List.Forall₂.nil
    · intro h; cases h; rfl
  | cons l ls ih =>
    simp only [mcpGo, List.mem_flatMap, List.mem_map]
    constructor
    · rintro ⟨x, hx, ws', hws', rfl⟩
      exact List.Forall₂.cons hx (ih.mp hws')
    · intro h
      cases h with
      | cons hx hrest => exact ⟨_, hx, _, ih.mpr hrest, rfl⟩

theorem sum_map_const (l : List α) (c : Nat) :
    (l.map (fun _ => c)).sum = l.length * c := by
  induction l with
  | nil => simp
  | cons x l ih => simp [ih, Nat.succ_mul, Nat.add_comm]

theorem length_mcpGo (ls : List (List α)) :
    (mcpGo ls).length = (ls.map List.length).prod := by
  induction ls with
  | nil => rfl
  | cons l ls ih =>
    have h1 : (List.length ∘ fun x : α => List.map (fun t => x :: t) (mcpGo ls))
        = fun _ : α => (mcpGo ls).length := by
      funext x; simp
    simp only [mcpGo, List.length_flatMap, h1, sum_map_const, ih, List.map_cons,
      List.prod_cons]

theorem forall₂_mem_replicate {P : List α} {ws : List α} {k : Nat} :
    List.Forall₂ (fun w l => w ∈ l) ws (List.replicate k P) ↔
      ws.length = k ∧ ∀ w ∈ ws, w ∈ P := by
  induction k generalizing ws with
  | zero =>
    simp only [List.replicate]
    constructor
    · intro h; cases h; simp
    · intro ⟨h, _⟩; rw [List.length_eq_zero] at h; subst h; exact List.Forall₂.nil
  | succ k ih =>
    simp only [List.replicate]
    constructor
    · intro h
      cases h with
      | cons hx hrest =>
        obtain ⟨hlen, hall⟩ := ih.mp hrest
        refine ⟨by simp [hlen], ?_⟩
        intro w hw
        rcases List.mem_cons.mp hw with rfl | hw
        · exact hx
        · exact hall w hw
    · rintro ⟨hlen, hall⟩
      cases ws with
      | nil => simp at hlen
      | cons w ws' =>
        refine List.Forall₂.cons (hall w (by simp)) (ih.mpr ⟨by simpa using hlen, ?_⟩)
        intro w' hw'; exact hall w' (by simp [hw'])

theorem utf8Len_append (a b : List Char) :
    utf8Len (a ++ b) = utf8Len a + utf8Len b := by
  simp [utf8Len]

theorem utf8Len_flatten (ws : List (List Char)) :
    utf8Len ws.flatten = (ws.map utf8Len).sum := by
  induction ws with
  | nil => rfl
  | cons w ws ih => simp [List.flatten, utf8Len_append, ih]

theorem filterMap_if_all {p : α → Prop} [DecidablePred p] (f : α → β) (l : List α)
    (h : ∀ x ∈ l, p x) :
    l.filterMap (fun x => if p x then some (f x) else none) = l.map f := by
  induction l with
  | nil => rfl
  | cons x l ih =>
    simp only [List.filterMap_cons, List.map_cons]
    rw [if_pos (h x (by simp))]
    rw [ih (fun y hy => h y (by simp [hy]))]

theorem length_filterMap_if {p : α → Prop} [DecidablePred p] (f : α → β) (l : List α) :
    (l.filterMap (fun x => if p x then some (f x) else none)).length
      = l.countP (fun x => decide (p x)) := by
  induction l with
  | nil => rfl
  | cons x l ih =>
    simp only [List.filterMap_cons, List.countP_cons]
    by_cases hx : p x
    · simp [hx, ih]
    · simp [hx, ih]

theorem filterMap_flatMap (l : List α) (f : α → List β) (g : β → Option γ) :
    (l.flatMap f).filterMap g = l.flatMap (fun x => (f x).filterMap g) := by
  induction l with
  | nil => rfl
  | cons x l ih => simp [List.flatMap_cons, List.filterMap_append, ih]

theorem countP_flatMap (l : List α) (f : α → List β) (p : β → Bool) :
    (l.flatMap f).countP p = (l.map (fun x => (f x).countP p)).sum := by
  induction l with
  | nil => rfl
  | cons x l ih => simp [List.flatMap_cons, List.countP_append, ih]

theorem sum_map_eq_const {f : α → Nat} {c : Nat} (l : List α)
    (h : ∀ x ∈ l, f x = c) : (l.map f).sum = l.length * c := by
  induction l with
  | nil => simp
  | cons x l ih =>
    simp only [List.map_cons, List.sum_cons, List.length_cons, h x (by simp)]
    rw [ih (fun y hy => h y (by simp [hy]))]
    simp [Nat.succ_mul, Nat.add_comm]

theorem countP_all_true {p : α → Bool} (l : List α) (h : ∀ x ∈ l, p x = true) :
    l.countP p = l.length :=
  List.countP_eq_length.mpr h

theorem countP_all_false {p : α → Bool} (l : List α) (h : ∀ x ∈ l, p x = false) :
    l.countP p = 0 := by
  induction l with
  | nil => rfl
  | cons x l ih =>
    simp only [List.countP_cons, h x (by simp)]
    simp [ih (fun y hy => h y (by simp [hy]))]

/-! ### Concrete generator contexts used by closed theorems -/

/-- A generator context with the given length window and no dictionary,
terms or transforms. -/
def genOnly (mn mx : Nat) : Generator := ⟨mn, mx, [], [], []⟩

/-- A generator context whose terms list contains just the empty string
(an empty term passes the driver's `word.len() <= max_length` filter). -/
def genEmptyTerm : Generator := ⟨3, 6, [], [], [[]]⟩

/-! ### Claim C1 -/

/-- Claim C1 is violated by the code (code bug): expanding the plain
literal pattern `abcd` with `min_length = 1`, `max_length = 3` returns
the candidate `"abcd"` of length 4 — `walk_regex` pushes a plain literal
without any length check and the final filter of `regex_words` checks
only `min_length`, so the delivered result breaks the spec's invariant
`length(s) ≤ max_length`. -/
theorem c1_literal_escapes_max_length :
    regex_words 2 (some (Hir.lit [97, 98, 99, 100])) (genOnly 1 3)
      = .ok [['a', 'b', 'c', 'd']]
    ∧ (genOnly 1 3).max_length < utf8Len ['a', 'b', 'c', 'd'] := by
  constructor
  · rfl
  · decide

/-! ### Claim C9 -/

/-- Claim C9 is violated by the code (code bug): in the Repetition arm
the derived bound `(max + shortest - 1) / shortest` divides by zero —
a Rust panic — whenever the sub-node's pool is empty (here `(%t)+` with
an empty terms list) or its shortest member is the empty string (here
`(%t)+` with `""` as the only term). -/
theorem c9_repetition_divides_by_zero :
    walk_regex 3 (Hir.rep 1 none (Hir.capture (Hir.lit [37, 116]))) (genOnly 3 6)
      = .error .panicked
    ∧ walk_regex 2 (Hir.rep 1 none (Hir.lit [37, 116])) genEmptyTerm
      = .error .panicked := by
  exact ⟨rfl, rfl⟩

/-! ### Claim C3 -/

/-- Counterexample to claim C3: on a literal whose bytes are not valid
UTF-8 the expansion does not return an error value — the source's
`std::str::from_utf8(&c.0).unwrap()` panics (modelled `.error .panicked`,
the embedding's panic outcome; the source functions return bare
`Vec<String>` and have no error channel to report through). -/
theorem c3_literal_decode_panics :
    walk_regex 1 (Hir.lit [255]) (genOnly 3 6) = .error .panicked := rfl

/-- Claim C3 amended: pattern expansion panics — it does not return an
error to the caller — both when a literal node's bytes cannot be decoded
as text (`from_utf8(..).unwrap()`) and when the supplied pattern cannot
be parsed by the upstream grammar (`parse(input).expect("regex is
invalid")` in `regex_words`); each panic is a single terminal failure
aborting the whole expansion, with no partial output. -/
theorem c3_amended_expansion_panics (fuel : Nat) (g : Generator) :
    walk_regex (fuel + 1) (Hir.lit [255]) g = .error .panicked
    ∧ regex_words fuel none g = .error .panicked := ⟨rfl, rfl⟩

/-! ### Claim C2, counterexample part -/

/-- Counterexample to claim C2: for the Repetition node `(ab){1,3}` with
`max_length = 10` the claim predicts repetition counts 1..3 (the node's
explicit max), hence `"ababab"` among the results; the code instead uses
`(3 + 2 - 1) / 2 = 2` as the last count and stops at `"abab"`.  In the
extreme, for `(ab){1,4294967295}` the u32 numerator `u32::MAX + 2 - 1`
wraps to `0`, the last count is `0 / 2 = 0` and nothing at all is
emitted (in a release build; a debug build aborts on the overflow),
where the claim predicts counts 1..4294967295. -/
theorem c2_explicit_max_not_used :
    walk_regex 2 (Hir.rep 1 (some 3) (Hir.lit [97, 98])) (genOnly 1 10)
      = .ok [['a', 'b'], ['a', 'b', 'a', 'b']]
    ∧ ['a', 'b', 'a', 'b', 'a', 'b'] ∉ [['a', 'b'], ['a', 'b', 'a', 'b']]
    ∧ walk_regex 2 (Hir.rep 1 (some 4294967295) (Hir.lit [97, 98])) (genOnly 1 10)
      = .ok [] := by
  refine ⟨rfl, by decide, rfl⟩

/-! ### Claim C6, counterexample part -/

/-- Counterexample to claim C6: for the class `[aα]` (ranges `a-a` and
`α-α`) the claim predicts the ASCII restriction `{"a"}` as the result,
with only the non-ASCII range skipped; the code tests `is_ascii()` on
the whole class and drops all of it, producing no candidates at all. -/
theorem c6_mixed_class_dropped_entirely :
    walk_regex 1 (Hir.cls [(97, 97), (945, 945)]) (genOnly 1 5) = .ok []
    ∧ ['a'] ∉ ([] : List (List Char)) := by
  constructor
  · rfl
  · decide

/-! ### Claim C7, counterexample part -/

/-- Counterexample to claim C7: for the base string `"é"` (one character,
two UTF-8 bytes) the capitalization stage enumerates `1 << len = 4`
masks, not `2^1 = 2`, and none of the four variants upper-cases the
character (`to_ascii_uppercase` leaves non-ASCII unchanged): the mask
count is governed by the byte length, not the character count. -/
theorem c7_non_ascii_mask_count :
    cap_variants [Char.ofNat 233]
      = [[Char.ofNat 233], [Char.ofNat 233], [Char.ofNat 233], [Char.ofNat 233]]
    ∧ (cap_variants [Char.ofNat 233]).length ≠ 2 ^ [Char.ofNat 233].length := by
  constructor
  · decide
  · decide

/-! ### Claim C8 -/

theorem filterMap_if_eq_filter_map {p : α → Prop} [DecidablePred p]
    (f : α → β) (l : List α) :
    l.filterMap (fun x => if p x then some (f x) else none)
      = (l.filter (fun x => decide (p x))).map f := by
  induction l with
  | nil => rfl
  | cons x l ih =>
    by_cases hx : p x
    · simp [List.filterMap_cons, List.filter_cons, hx, ih]
    · simp [List.filterMap_cons, List.filter_cons, hx, ih]

theorem add_transformations_foldl (repl : List ReplacePair) (word : List Char)
    (acc : List (List Char)) :
    word.foldl (fun current c =>
        current.flatMap (fun combo =>
          (combo ++ [c]) :: repl.filterMap (fun r =>
            if c = r.fromc then some (combo ++ [r.toc]) else none))) acc
      = acc.flatMap (fun p =>
          (listProd (word.map (subst_choices repl))).map (p ++ ·)) := by
  induction word generalizing acc with
  | nil => simp [listProd]
  | cons c ws ih =>
    simp only [List.foldl_cons, ih]
    rw [List.flatMap_assoc]
    congr 1
    funext p
    have hstep : (p ++ [c]) :: repl.filterMap (fun r =>
        if c = r.fromc then some (p ++ [r.toc]) else none)
        = (subst_choices repl c).map (fun x => p ++ [x]) := by
      simp [subst_choices, filterMap_if_eq_filter_map, List.map_map, Function.comp]
    rw [hstep]
    have hprod : listProd ((c :: ws).map (subst_choices repl))
        = (subst_choices repl c).flatMap (fun x =>
            (listProd (ws.map (subst_choices repl))).map (x :: ·)) := rfl
    rw [hprod, List.flatMap_map, List.map_flatMap]
    congr 1
    funext x
    simp [List.map_map, Function.comp, List.append_assoc]

/-- Claim C8 confirmed: `add_transformations` processes characters left
to right, each partial candidate spawning the kept character plus one
successor per matching pair; the completed list is exactly the ordered
cartesian product of the per-position choice lists (keep the character,
or apply exactly one matching substitution), its membership is exactly
the per-position combinations, and its size multiplies `(1 + m)` over
the positions, `m` being the number of pairs whose `from` character
matches. -/
theorem c8_add_transformations_product (word : List Char)
    (repl : List ReplacePair) :
    add_transformations word repl = listProd (word.map (subst_choices repl))
    ∧ (∀ s, s ∈ add_transformations word repl ↔
        List.Forall₂ (fun ch c => ch ∈ subst_choices repl c) s word)
    ∧ (add_transformations word repl).length
        = (word.map (fun c =>
            1 + (repl.filter (fun r => decide (c = r.fromc))).length)).prod := by
  have hmain : add_transformations word repl
      = listProd (word.map (subst_choices repl)) := by
    unfold add_transformations
    rw [add_transformations_foldl]
    simp
  refine ⟨hmain, ?_, ?_⟩
  · intro s
    rw [hmain, ← mcpGo_eq_listProd, mem_mcpGo]
    exact List.forall₂_map_right_iff
  · rw [hmain, ← mcpGo_eq_listProd, length_mcpGo]
    simp only [List.map_map]
    refine congrArg List.prod (List.map_congr_left ?_)
    intro c _
    simp [Function.comp, subst_choices, Nat.add_comm]

/-! ### Claim C4 -/

theorem walk_list_length (rec : Hir → Generator → Except RunErr (List (List Char)))
    (g : Generator) (subs : List Hir) (gs : List (List (List Char)))
    (h : walk_list rec g subs = .ok gs) : gs.length = subs.length := by
  induction subs generalizing gs with
  | nil =>
    simp only [walk_list] at h
    cases h
    rfl
  | cons x xs ih =>
    simp only [walk_list] at h
    cases hx : rec x g with
    | error e => rw [hx] at h; cases h
    | ok group =>
      rw [hx] at h
      cases hr : walk_list rec g xs with
      | error e => rw [hr] at h; cases h
      | ok groups =>
        rw [hr] at h
        cases h
        simp [ih _ hr]

/-- Claim C4 confirmed: for a (nonempty, as produced by the parser)
Concat node whose sub-nodes expand without panic to `gs`, the result is
exactly the full cartesian product of the `gs` (last sub-node varying
fastest, which is both `itertools`' product order and the order of the
spec-side `listProd`), a combination kept if and only if its total
length is at most `max_length`; the pruning happens at concatenation
time, and no over-length concatenation is ever emitted. -/
theorem c4_concat_cartesian_law (fuel : Nat) (subs : List Hir) (g : Generator)
    (gs : List (List (List Char))) (hne : subs ≠ [])
    (h : walk_list (walk_regex fuel) g subs = .ok gs) :
    walk_regex (fuel + 1) (Hir.concat subs) g
      = .ok (spec_concat_product gs g.max_length)
    ∧ (∀ s ∈ spec_concat_product gs g.max_length, utf8Len s ≤ g.max_length)
    ∧ (∀ s, s ∈ spec_concat_product gs g.max_length ↔
        ∃ ws, List.Forall₂ (fun w grp => w ∈ grp) ws gs
          ∧ (ws.map utf8Len).sum ≤ g.max_length ∧ s = ws.flatten) := by
  have hgs : gs ≠ [] := by
    intro hnil
    subst hnil
    have := walk_list_length _ _ _ _ h
    cases subs with
    | nil => exact hne rfl
    | cons a l => simp at this
  refine ⟨?_, ?_, ?_⟩
  · have hmcp : multiCartesianProduct gs = listProd gs := by
      cases gs with
      | nil => exact absurd rfl hgs
      | cons g1 gs' => rw [multiCartesianProduct_ne_nil, mcpGo_eq_listProd]
    simp only [walk_regex, walk_regex_body, h]
    rw [hmcp]
    rfl
  · intro s hs
    simp only [spec_concat_product, List.mem_filterMap] at hs
    obtain ⟨ws, _, hF⟩ := hs
    by_cases hc : (ws.map utf8Len).sum ≤ g.max_length
    · rw [if_pos hc] at hF
      cases hF
      rw [utf8Len_flatten]
      exact hc
    · rw [if_neg hc] at hF
      cases hF
  · intro s
    simp only [spec_concat_product, List.mem_filterMap]
    constructor
    · rintro ⟨ws, hmem, hF⟩
      by_cases hc : (ws.map utf8Len).sum ≤ g.max_length
      · rw [if_pos hc] at hF
        cases hF
        exact ⟨ws, (@mem_mcpGo _ gs ws).mp (by rwa [mcpGo_eq_listProd]), hc, rfl⟩
      · rw [if_neg hc] at hF
        cases hF
    · rintro ⟨ws, hmem, hc, rfl⟩
      refine ⟨ws, ?_, if_pos hc⟩
      rw [← mcpGo_eq_listProd] at *
      exact mem_mcpGo.mpr hmem

/-- Witness for claim C4: the Concat node of `a[12]` with
`max_length = 2` delivers exactly the pruned product `{a1, a2}`. -/
theorem c4_witness :
    walk_regex 2 (Hir.concat [Hir.lit [97], Hir.cls [(49, 50)]]) (genOnly 1 2)
      = .ok (spec_concat_product [[['a']], [['1'], ['2']]] 2) :=
  (c4_concat_cartesian_law 1 [Hir.lit [97], Hir.cls [(49, 50)]] (genOnly 1 2)
    [[['a']], [['1'], ['2']]] (by simp) rfl).1

/-! ### Claim C2, amended part -/

/-- Claim C2 amended: the repetition counts attempted range from the
node's `min` up to `rep_last = ((M + shortest - 1) % 2^32) / shortest`
— the ceiling of `M / shortest`, computed in wrapping u32 arithmetic —
where `M` is the node's explicit max (a u32) when the AST supplies one
and otherwise the context's `max_length` cast to u32, and `shortest` is
the length of the shortest string of the sub-node's pool.  (The claim's
original form, which uses the explicit max itself as the bound, holds
only when `shortest = 1` below the wrap region; and at explicit maxima
within `shortest` of `u32::MAX` the wrapped numerator drops the bound
to `0`.)  Stated as: a string is emitted iff it is the zero-repetition
empty string (when `min = 0`) or a concatenation of `k` pool members
with `min ≤ k ≤ rep_last` that fits `max_length`. -/
theorem c2_amended_repetition_bound (fuel mn : Nat) (mx : Option Nat) (sub : Hir)
    (g : Generator) (pool : List (List Char))
    (hsub : walk_regex fuel sub g = .ok pool)
    (hsh : pool_shortest pool ≠ 0) :
    ∃ R, walk_regex (fuel + 1) (Hir.rep mn mx sub) g = .ok R ∧
      ∀ s, s ∈ R ↔ ((mn = 0 ∧ s = []) ∨
        ∃ (k : Nat) (ws : List (List Char)), mn ≤ k ∧ k ≤ rep_last mx g pool
          ∧ ws.length = k
          ∧ (∀ w ∈ ws, w ∈ pool) ∧ utf8Len s ≤ g.max_length ∧ s = ws.flatten) := by
  refine ⟨(if mn = 0 then [[]] else []) ++
      (List.range' mn (rep_last mx g pool + 1 - mn)).flatMap (fun i =>
        (multiCartesianProduct (List.replicate i pool)).filterMap (fun ws =>
          if utf8Len ws.flatten ≤ g.max_length then some ws.flatten else none)), ?_, ?_⟩
  · simp only [walk_regex, walk_regex_body, hsub]
    rw [if_neg hsh]
  · intro s
    rw [List.mem_append, List.mem_flatMap]
    constructor
    · rintro (hbase | ⟨i, hi, hstep⟩)
      · left
        by_cases hm : mn = 0
        · rw [if_pos hm] at hbase
          simp at hbase
          exact ⟨hm, hbase⟩
        · rw [if_neg hm] at hbase
          simp at hbase
      · right
        obtain ⟨j, hj, rfl⟩ := List.mem_range'.mp hi
        rw [List.mem_filterMap] at hstep
        obtain ⟨ws, hws, hF⟩ := hstep
        cases hka : mn + 1 * j with
        | zero =>
          rw [hka] at hws
          simp only [List.replicate] at hws
          simp [multiCartesianProduct] at hws
        | succ k' =>
          rw [hka] at hws
          rw [show List.replicate (k' + 1) pool = pool :: List.replicate k' pool from rfl,
            multiCartesianProduct_ne_nil] at hws
          have hchar := mem_mcpGo.mp hws
          rw [show (pool :: List.replicate k' pool) = List.replicate (k' + 1) pool from rfl]
            at hchar
          obtain ⟨hlen, hall⟩ := forall₂_mem_replicate.mp hchar
          by_cases hc : utf8Len ws.flatten ≤ g.max_length
          · rw [if_pos hc] at hF
            cases hF
            exact ⟨k' + 1, ws, by omega, by omega, hlen, hall, hc, rfl⟩
          · rw [if_neg hc] at hF
            cases hF
    · rintro (⟨hm, rfl⟩ | ⟨k, ws, hmk, hkl, hlen, hall, hfit, rfl⟩)
      · left
        rw [if_pos hm]
        simp
      · cases k with
        | zero =>
          left
          have hm : mn = 0 := by omega
          have hws : ws = [] := by
            rw [List.length_eq_zero] at hlen
            exact hlen
          rw [if_pos hm, hws]
          simp
        | succ k' =>
          right
          refine ⟨k' + 1, List.mem_range'.mpr ⟨k' + 1 - mn, by omega, by omega⟩, ?_⟩
          rw [List.mem_filterMap]
          refine ⟨ws, ?_, if_pos hfit⟩
          rw [show List.replicate (k' + 1) pool = pool :: List.replicate k' pool from rfl,
            multiCartesianProduct_ne_nil]
          apply mem_mcpGo.mpr
          rw [show (pool :: List.replicate k' pool) = List.replicate (k' + 1) pool from rfl]
          exact forall₂_mem_replicate.mpr ⟨hlen, hall⟩

/-- Witness for claim C2's amended theorem: `a+` (explicit max absent)
with `max_length = 3` over the pool `{"a"}` attempts counts 1..3 and in
particular emits `"aaa"`. -/
theorem c2_amended_witness :
    walk_regex 2 (Hir.rep 1 none (Hir.lit [97])) (genOnly 1 3)
      = .ok [['a'], ['a', 'a'], ['a', 'a', 'a']]
    ∧ ['a', 'a', 'a'] ∈ [['a'], ['a', 'a'], ['a', 'a', 'a']] := by
  obtain ⟨R, hR, hiff⟩ := c2_amended_repetition_bound 1 1 none (Hir.lit [97])
    (genOnly 1 3) [['a']] rfl (by decide)
  have h2 : walk_regex 2 (Hir.rep 1 none (Hir.lit [97])) (genOnly 1 3)
      = .ok [['a'], ['a', 'a'], ['a', 'a', 'a']] := rfl
  have hmem : ['a', 'a', 'a'] ∈ R :=
    (hiff _).mpr (Or.inr ⟨3, [['a'], ['a'], ['a']], by omega, by decide, rfl,
      by decide, by decide, rfl⟩)
  rw [hR] at h2
  cases h2
  exact ⟨hR, hmem⟩

/-! ### Claim C6, amended part -/

theorem char_toNat_ofNat_lt_128 : ∀ n < 128, (Char.ofNat n).toNat = n := by decide

theorem end_le_getLast (rs : List (Nat × Nat)) :
    rs.Pairwise (fun a b => a.2 < b.1) → (∀ r ∈ rs, r.1 ≤ r.2) →
    ∀ rl, rs.getLast? = some rl → ∀ r ∈ rs, r.2 ≤ rl.2 := by
  induction rs with
  | nil => intro _ _ rl hlast; simp at hlast
  | cons a tl ih =>
    intro hpair hr rl hlast r hrm
    cases tl with
    | nil =>
      simp at hlast hrm
      subst hlast
      subst hrm
      exact Nat.le_refl _
    | cons b tl' =>
      rw [List.getLast?_cons_cons] at hlast
      rcases List.mem_cons.mp hrm with rfl | hmem
      · have hrlmem : rl ∈ b :: tl' := List.mem_of_mem_getLast? hlast
        have hpair' := List.pairwise_cons.mp hpair
        have h1 : r.2 < rl.1 := hpair'.1 rl hrlmem
        have h2 : rl.1 ≤ rl.2 := hr rl (by simp [hrlmem])
        omega
      · exact ih (List.pairwise_cons.mp hpair).2 (fun x hx => hr x (by simp [hx]))
          rl hlast r hmem

/-- Claim C6 amended: the ASCII check is class-wide, not per-range.  When
every range of the (sorted, disjoint, as produced by the parser) class
lies in ASCII, the result is exactly one single-character string per
code point of the ranges (no duplicates); but when any range reaches
beyond ASCII the entire class — including its ASCII ranges — contributes
no candidates (with a diagnostic), and in neither case does it fail. -/
theorem c6_amended_class_expansion (fuel : Nat) (rs : List (Nat × Nat)) (g : Generator)
    (hpair : rs.Pairwise (fun a b => a.2 < b.1))
    (hr : ∀ r ∈ rs, r.1 ≤ r.2) :
    ((∀ r ∈ rs, r.2 ≤ 127) →
      walk_regex (fuel + 1) (Hir.cls rs) g = .ok (cls_chars rs)
      ∧ (∀ s, s ∈ cls_chars rs ↔
          ∃ n, (∃ r ∈ rs, r.1 ≤ n ∧ n ≤ r.2) ∧ s = [Char.ofNat n])
      ∧ (cls_chars rs).Nodup
      ∧ (cls_chars rs).length = (rs.map (fun r => r.2 + 1 - r.1)).sum)
    ∧ ((∃ r ∈ rs, 127 < r.2) → walk_regex (fuel + 1) (Hir.cls rs) g = .ok []) := by
  constructor
  · intro hasc
    have htrue : cls_is_ascii rs = true := by
      cases hlast : rs.getLast? with
      | none => simp [cls_is_ascii, hlast]
      | some rl =>
        simp only [cls_is_ascii, hlast, decide_eq_true_eq]
        exact hasc rl (List.mem_of_mem_getLast? hlast)
    refine ⟨?_, ?_, ?_, ?_⟩
    · simp only [walk_regex, walk_regex_body, htrue, if_true]
    · intro s
      simp only [cls_chars, List.mem_flatMap, List.mem_map]
      constructor
      · rintro ⟨r, hrm, n, hn, rfl⟩
        obtain ⟨j, hj, rfl⟩ := List.mem_range'.mp hn
        exact ⟨r.1 + 1 * j, ⟨r, hrm, by omega, by omega⟩, rfl⟩
      · rintro ⟨n, ⟨r, hrm, h1, h2⟩, rfl⟩
        exact ⟨r, hrm, n, List.mem_range'.mpr ⟨n - r.1, by omega, by omega⟩, rfl⟩
    · rw [cls_chars, List.nodup_flatMap]
      constructor
      · intro r hrm
        refine List.Nodup.map_on ?_ (List.nodup_range' _ _)
        intro x hx y hy hxy
        obtain ⟨jx, hjx, rfl⟩ := List.mem_range'.mp hx
        obtain ⟨jy, hjy, rfl⟩ := List.mem_range'.mp hy
        have hx127 : r.1 + 1 * jx ≤ 127 := by have := hasc r hrm; omega
        have hy127 : r.1 + 1 * jy ≤ 127 := by have := hasc r hrm; omega
        have hchar : Char.ofNat (r.1 + 1 * jx) = Char.ofNat (r.1 + 1 * jy) := by
          simpa using hxy
        have : (Char.ofNat (r.1 + 1 * jx)).toNat = (Char.ofNat (r.1 + 1 * jy)).toNat := by
          rw [hchar]
        rw [char_toNat_ofNat_lt_128 _ (by omega), char_toNat_ofNat_lt_128 _ (by omega)]
          at this
        omega
      · refine List.Pairwise.imp_of_mem ?_ hpair
        intro a b ha hb hab
        simp only [Function.onFun]
        intro x hxa hxb
        simp only [List.mem_map] at hxa hxb
        obtain ⟨n, hn, rfl⟩ := hxa
        obtain ⟨m, hm, hnm⟩ := hxb
        obtain ⟨jn, hjn, rfl⟩ := List.mem_range'.mp hn
        obtain ⟨jm, hjm, rfl⟩ := List.mem_range'.mp hm
        have hn127 : a.1 + 1 * jn ≤ 127 := by have := hasc a ha; omega
        have hm127 : b.1 + 1 * jm ≤ 127 := by have := hasc b hb; omega
        have hchar : Char.ofNat (b.1 + 1 * jm) = Char.ofNat (a.1 + 1 * jn) := by
          simpa using hnm
        have heq : (Char.ofNat (b.1 + 1 * jm)).toNat
            = (Char.ofNat (a.1 + 1 * jn)).toNat := by rw [hchar]
        rw [char_toNat_ofNat_lt_128 _ (by omega), char_toNat_ofNat_lt_128 _ (by omega)]
          at heq
        omega
    · simp only [cls_chars, List.length_flatMap]
      refine congrArg List.sum (List.map_congr_left ?_)
      intro r _
      simp [Function.comp, List.length_map, List.length_range']
  · rintro ⟨r, hrm, hbig⟩
    have hne : rs ≠ [] := by
      intro h
      subst h
      simp at hrm
    cases hlast : rs.getLast? with
    | none =>
      cases rs with
      | nil => exact absurd rfl hne
      | cons a tl => simp [List.getLast?_eq_none_iff] at hlast
    | some rl =>
      have hfalse : cls_is_ascii rs = false := by
        simp only [cls_is_ascii, hlast, decide_eq_false_iff_not]
        have := end_le_getLast rs hpair hr rl hlast r hrm
        omega
      simp only [walk_regex, walk_regex_body, hfalse, if_false]
      rfl

/-- Witness for claim C6's amended theorem: the ASCII class `[a-bd]`
expands to its three code points, and the class `[a]`∪`[Ξ-϶]` (one range
past ASCII) expands to nothing. -/
theorem c6_amended_witness :
    walk_regex 1 (Hir.cls [(97, 98), (100, 100)]) (genOnly 1 5)
      = .ok (cls_chars [(97, 98), (100, 100)])
    ∧ (cls_chars [(97, 98), (100, 100)]).length = 3
    ∧ walk_regex 1 (Hir.cls [(97, 97), (900, 950)]) (genOnly 1 5) = .ok [] := by
  have h1 := c6_amended_class_expansion 0 [(97, 98), (100, 100)] (genOnly 1 5)
    (by decide) (by decide)
  obtain ⟨ha, _, _, hlen⟩ := h1.1 (by decide)
  have h2 := c6_amended_class_expansion 0 [(97, 97), (900, 950)] (genOnly 1 5)
    (by decide) (by decide)
  refine ⟨ha, by rw [hlen]; decide, h2.2 ⟨(900, 950), by decide, by decide⟩⟩

/-! ### Claim C7, amended part -/

theorem and_one_iff_testBit (i j : Nat) :
    ((i >>> j) &&& 1 = 1) ↔ Nat.testBit i j = true := by
  have h2 : Nat.testBit i j = ((i >>> j) % 2 != 0) := by
    show (1 &&& (i >>> j) != 0) = _
    rw [Nat.and_comm, Nat.and_one_is_mod]
  rw [Nat.and_one_is_mod, h2]
  constructor
  · intro h; simp [h]
  · intro h; simp [bne] at h; omega

theorem toLower_toNat_le_127 (c : Char) (h : c.toNat ≤ 127) :
    (Char.toLower c).toNat ≤ 127 := by
  show (if c.toNat ≥ 65 ∧ c.toNat ≤ 90 then Char.ofNat (c.toNat + 32) else c).toNat ≤ 127
  by_cases hc : c.toNat ≥ 65 ∧ c.toNat ≤ 90
  · rw [if_pos hc]
    rw [char_toNat_ofNat_lt_128 _ (by omega)]
    omega
  · rw [if_neg hc]
    exact h

theorem charUtf8Size_ascii (c : Char) (h : c.toNat ≤ 127) : charUtf8Size c = 1 := by
  simp [charUtf8Size, h]

/-- Claim C7 amended: the mask count of the capitalization stage is
`2 ^ (UTF-8 byte length of the lower-cased word)`, which for an
all-ASCII base string equals `2 ^ n` with `n` the character count; in
that case the stage lower-cases first and enumerates exactly the `n`-bit
masks `0, 1, ..., 2^n - 1` in increasing numeric order with no mask
repeated, a set bit `j` upper-casing character `j`, exactly as the
spec-side `spec_cap_variants` describes.  (On non-ASCII input the mask
count exceeds `2 ^ (character count)` and set bits over non-ASCII
characters do not upper-case them.) -/
theorem c7_amended_cap_variants (w : List Char) (h : ∀ c ∈ w, c.toNat ≤ 127) :
    cap_variants w = spec_cap_variants w
    ∧ (cap_variants w).length = 2 ^ w.length := by
  have hlow : ∀ c ∈ w.map Char.toLower, c.toNat ≤ 127 := by
    intro c hc
    obtain ⟨c0, hc0, rfl⟩ := List.mem_map.mp hc
    exact toLower_toNat_le_127 _ (h c0 hc0)
  have hL : utf8Len (w.map Char.toLower) = w.length := by
    unfold utf8Len
    rw [sum_map_eq_const _ (fun c hc => charUtf8Size_ascii c (hlow c hc))]
    simp
  have hshift : (1 : Nat) <<< w.length = 2 ^ w.length := by
    rw [Nat.shiftLeft_eq, Nat.one_mul]
  constructor
  · simp only [cap_variants, spec_cap_variants, hL, List.length_map, hshift]
    refine List.map_congr_left ?_
    intro i _
    refine List.map_congr_left ?_
    intro jc _
    by_cases hb : Nat.testBit i jc.1 = true
    · rw [if_pos ((and_one_iff_testBit i jc.1).mpr hb), if_pos hb]
    · rw [if_neg (fun hp => hb ((and_one_iff_testBit i jc.1).mp hp)),
        if_neg (fun hp => hb hp)]
  · simp [cap_variants, hL, hshift]

/-- Witness for claim C7's amended theorem: the ASCII base string `"ab"`
gets exactly the `2^2 = 4` spec-described variants. -/
theorem c7_amended_witness :
    cap_variants ['a', 'b'] = spec_cap_variants ['a', 'b']
    ∧ (cap_variants ['a', 'b']).length = 2 ^ 2 :=
  c7_amended_cap_variants ['a', 'b'] (by decide)

/-! ### Claim C10 -/

theorem one_le_charUtf8Size (c : Char) : 1 ≤ charUtf8Size c := by
  unfold charUtf8Size
  split
  · omega
  · split
    · omega
    · split <;> omega

theorem utf8Len_pos (w : List Char) (h : w ≠ []) : 1 ≤ utf8Len w := by
  cases w with
  | nil => exact absurd rfl h
  | cons c cs =>
    have := one_le_charUtf8Size c
    simp only [utf8Len, List.map_cons, List.sum_cons]
    omega

theorem generate_concats_nil (mn mx : Nat) (tf : List ReplacePair)
    (pool : List (List Char)) (fuel : Nat) (term : List Char) :
    generate_concats mn mx tf pool fuel term [] = some [] := by
  rw [generate_concats.eq_def]

theorem generate_concats_cons (mn mx : Nat) (tf : List ReplacePair)
    (pool : List (List Char)) (fuel : Nat) (term t1 : List Char)
    (rest : List (List Char)) :
    generate_concats mn mx tf pool fuel term (t1 :: rest)
      = if utf8Len t1 > mx then generate_concats mn mx tf pool fuel term rest
        else if utf8Len (term ++ t1) > mx then
          generate_concats mn mx tf pool fuel term rest
        else
          match fuel with
          | 0 => none
          | fuel' + 1 =>
            match generate_concats mn mx tf pool fuel' (term ++ t1) pool,
                  generate_concats mn mx tf pool (fuel' + 1) term rest with
            | some recOut, some restOut =>
              some ((if utf8Len (term ++ t1) ≥ mn then
                      generate_permutations (term ++ t1) tf
                     else []) ++ recOut ++ restOut)
            | _, _ => none := by
  rw [generate_concats.eq_def]

theorem generate_concats_fuel_sufficient (min_length max_length : Nat)
    (tf : List ReplacePair) (pool : List (List Char))
    (hpool : ∀ w ∈ pool, w ≠ []) :
    ∀ fuel term rest, (∀ w ∈ rest, w ≠ []) →
      max_length < fuel + utf8Len term →
      (generate_concats min_length max_length tf pool fuel term rest).isSome = true := by
  intro fuel
  induction fuel using Nat.strong_induction_on with
  | _ fuel ihf =>
    intro term rest hrest hfuel
    induction rest with
    | nil => simp [generate_concats_nil]
    | cons t1 rest' ihr =>
      have ihr' := ihr (fun w hw => hrest w (by simp [hw]))
      rw [generate_concats_cons]
      by_cases h1 : utf8Len t1 > max_length
      · rw [if_pos h1]
        exact ihr'
      · rw [if_neg h1]
        by_cases h2 : utf8Len (term ++ t1) > max_length
        · rw [if_pos h2]
          exact ihr'
        · rw [if_neg h2]
          have ht1 : 1 ≤ utf8Len t1 := utf8Len_pos t1 (hrest t1 (by simp))
          have happ : utf8Len (term ++ t1) = utf8Len term + utf8Len t1 :=
            utf8Len_append term t1
          cases fuel with
          | zero => omega
          | succ fuel' =>
            have hrec : (generate_concats min_length max_length tf pool fuel'
                (term ++ t1) pool).isSome = true := by
              refine ihf fuel' (by omega) (term ++ t1) pool hpool (by omega)
            have hrest2 : (generate_concats min_length max_length tf pool (fuel' + 1)
                term rest').isSome = true := ihr'
            obtain ⟨v1, hv1⟩ := Option.isSome_iff_exists.mp hrec
            obtain ⟨v2, hv2⟩ := Option.isSome_iff_exists.mp hrest2
            show (match generate_concats min_length max_length tf pool fuel'
                    (term ++ t1) pool,
                  generate_concats min_length max_length tf pool (fuel' + 1)
                    term rest' with
              | some recOut, some restOut =>
                some ((if utf8Len (term ++ t1) ≥ min_length then
                        generate_permutations (term ++ t1) tf
                       else []) ++ recOut ++ restOut)
              | _, _ => none).isSome = true
            rw [hv1, hv2]
            rfl

/-- Claim C10 confirmed: `generate_concats` terminates for every starting
prefix and every pool whose entries are non-empty strings of length at
most `max_length` (non-emptiness is what the argument needs: each
source-level recursive call strictly grows the accumulated string, and
recursion stops once the extension would exceed `max_length`; oversized
pool entries are merely skipped).  In the fuelled embedding: any fuel
exceeding `max_length - len(term)` — a bound on the remaining recursion
depth — already yields a result. -/
theorem c10_generate_concats_terminates (min_length max_length : Nat)
    (tf : List ReplacePair) (pool : List (List Char))
    (hpool : ∀ w ∈ pool, w ≠ [] ∧ utf8Len w ≤ max_length)
    (fuel : Nat) (term : List Char) (hfuel : max_length < fuel + utf8Len term) :
    (generate_concats min_length max_length tf pool fuel term pool).isSome = true :=
  generate_concats_fuel_sufficient min_length max_length tf pool
    (fun w hw => (hpool w hw).1) fuel term pool (fun w hw => (hpool w hw).1) hfuel

/-- Witness for claim C10: prefix `"a"`, pool `{"b"}`, `max_length = 2`:
fuel 2 suffices and the run completes. -/
theorem c10_witness :
    (generate_concats 1 2 [] [['b']] 2 ['a'] [['b']]).isSome = true :=
  c10_generate_concats_terminates 1 2 [] [['b']] (by decide) 2 ['a'] (by decide)

/-! ### Claim C5 -/

/-- The class pool of `[a-d]`. -/
def p4chars : List (List Char) := [['a'], ['b'], ['c'], ['d']]

/-- The class pool of `[1-6]`. -/
def p6chars : List (List Char) := [['1'], ['2'], ['3'], ['4'], ['5'], ['6']]

/-- The HIR of the pattern `[a-d]+[1-6]+`. -/
def ast45 : Hir :=
  Hir.concat [Hir.rep 1 none (Hir.cls [(97, 100)]), Hir.rep 1 none (Hir.cls [(49, 54)])]

/-- The value of the Repetition arm on a pool `P` (shortest member of
length 1) under `max_length = 5`, `min = 1`: repetition counts 1..5,
each count's tuples filtered against the length bound. -/
def repBlocks (P : List (List Char)) : List (List Char) :=
  (List.range' 1 5).flatMap (fun i =>
    (multiCartesianProduct (List.replicate i P)).filterMap (fun ws =>
      if utf8Len ws.flatten ≤ 5 then some ws.flatten else none))

/-- The value of the Concat arm on two expanded groups under
`max_length = 5`. -/
def concatPairs (A B : List (List Char)) : List (List Char) :=
  (multiCartesianProduct [A, B]).filterMap (fun ws =>
    if (ws.map utf8Len).sum ≤ 5 then some ws.flatten else none)

theorem mcpGo_replicate_flatten_len (P : List (List Char))
    (hP : ∀ w ∈ P, utf8Len w = 1) (i : Nat) (ws : List (List Char))
    (hws : ws ∈ mcpGo (List.replicate i P)) : utf8Len ws.flatten = i := by
  obtain ⟨hlen, hall⟩ := forall₂_mem_replicate.mp (mem_mcpGo.mp hws)
  rw [utf8Len_flatten, sum_map_eq_const ws (fun w hw => hP w (hall w hw)), hlen]
  simp

theorem rep_block_shape (P : List (List Char)) (hP : ∀ w ∈ P, utf8Len w = 1)
    (i : Nat) (hi : 1 ≤ i) (him : i ≤ 5) :
    ((multiCartesianProduct (List.replicate i P)).filterMap (fun ws =>
        if utf8Len ws.flatten ≤ 5 then some ws.flatten else none))
      = (mcpGo (List.replicate i P)).map List.flatten
    ∧ ∀ t ∈ (mcpGo (List.replicate i P)).map List.flatten, utf8Len t = i := by
  have hmcp : multiCartesianProduct (List.replicate i P) = mcpGo (List.replicate i P) := by
    cases i with
    | zero => omega
    | succ i' => rfl
  constructor
  · rw [hmcp]
    refine filterMap_if_all _ _ (fun ws hws => ?_)
    rw [mcpGo_replicate_flatten_len P hP i ws hws]
    exact him
  · intro t ht
    obtain ⟨ws, hws, rfl⟩ := List.mem_map.mp ht
    exact mcpGo_replicate_flatten_len P hP i ws hws

theorem rep_block_length (P : List (List Char)) (i : Nat) :
    ((mcpGo (List.replicate i P)).map List.flatten).length = P.length ^ i := by
  rw [List.length_map, length_mcpGo, List.map_replicate, List.prod_replicate]

theorem mcp_pair (A B : List α) :
    multiCartesianProduct [A, B] = A.flatMap (fun u => B.map (fun v => [u, v])) := by
  show mcpGo [A, B] = _
  simp only [mcpGo]
  refine congrArg (A.flatMap ·) ?_
  funext u
  induction B with
  | nil => rfl
  | cons v B ih => simp_all [List.flatMap_cons]

theorem sum_map_flatMap (idx : List α) (Blk : α → List β) (g : β → Nat) :
    ((idx.flatMap Blk).map g).sum = (idx.map (fun i => ((Blk i).map g).sum)).sum := by
  induction idx with
  | nil => rfl
  | cons i idx ih => simp [List.flatMap_cons, ih]

theorem concatPairs_length (A B : List (List Char)) :
    (concatPairs A B).length
      = (A.map (fun u =>
          B.countP (fun v => decide (utf8Len u + utf8Len v ≤ 5)))).sum := by
  unfold concatPairs
  rw [mcp_pair, filterMap_flatMap, List.length_flatMap]
  refine congrArg List.sum (List.map_congr_left ?_)
  intro u _
  simp only [Function.comp]
  rw [List.filterMap_map]
  have hfun : ((fun ws => if (List.map utf8Len ws).sum ≤ 5 then some ws.flatten else none)
        ∘ fun v => [u, v])
      = fun v => if utf8Len u + utf8Len v ≤ 5 then some (u ++ v) else none := by
    funext v
    simp [Function.comp, List.flatten]
  rw [hfun, length_filterMap_if]

theorem walk45_rep_a : walk_regex 8 (Hir.rep 1 none (Hir.cls [(97, 100)])) (genOnly 2 5)
    = .ok (repBlocks p4chars) := rfl

theorem walk45_rep_d : walk_regex 8 (Hir.rep 1 none (Hir.cls [(49, 54)])) (genOnly 2 5)
    = .ok (repBlocks p6chars) := rfl

theorem walk45_children : walk_list (walk_regex 8) (genOnly 2 5)
    [Hir.rep 1 none (Hir.cls [(97, 100)]), Hir.rep 1 none (Hir.cls [(49, 54)])]
    = .ok [repBlocks p4chars, repBlocks p6chars] := by
  simp only [walk_list, walk45_rep_a, walk45_rep_d]

theorem walk45_concat : walk_regex 9 ast45 (genOnly 2 5)
    = .ok (concatPairs (repBlocks p4chars) (repBlocks p6chars)) := by
  show walk_regex_body (walk_regex 8) ast45 (genOnly 2 5) = _
  rw [show ast45 = Hir.concat [Hir.rep 1 none (Hir.cls [(97, 100)]),
        Hir.rep 1 none (Hir.cls [(49, 54)])] from rfl]
  simp only [walk_regex_body, walk45_children]
  rfl

theorem repBlocks_countP (a : Nat) :
    (repBlocks p6chars).countP (fun v => decide (a + utf8Len v ≤ 5))
      = ((List.range' 1 5).map (fun j => if a + j ≤ 5 then 6 ^ j else 0)).sum := by
  unfold repBlocks
  rw [countP_flatMap]
  refine congrArg List.sum (List.map_congr_left ?_)
  intro j hj
  obtain ⟨t, ht, rfl⟩ := List.mem_range'.mp hj
  obtain ⟨hshape, hlen⟩ := rep_block_shape p6chars (by decide) (1 + 1 * t)
    (by omega) (by omega)
  rw [hshape]
  by_cases hc : a + (1 + 1 * t) ≤ 5
  · rw [if_pos hc]
    rw [countP_all_true _ (fun x hx => by
      rw [hlen x hx] at *
      simp only [decide_eq_true_eq]
      omega)]
    rw [rep_block_length]
    simp [p6chars]
  · rw [if_neg hc]
    refine countP_all_false _ (fun x hx => ?_)
    rw [hlen x hx] at *
    simp only [decide_eq_false_iff_not]
    omega

theorem concatPairs_45_length :
    (concatPairs (repBlocks p4chars) (repBlocks p6chars)).length
      = calculate_total_creations 4 6 2 5 := by
  rw [concatPairs_length]
  have hstep : ((repBlocks p4chars).map (fun u =>
      (repBlocks p6chars).countP (fun v => decide (utf8Len u + utf8Len v ≤ 5)))).sum
      = ((List.range' 1 5).map (fun i =>
          4 ^ i * ((List.range' 1 5).map (fun j =>
            if i + j ≤ 5 then 6 ^ j else 0)).sum)).sum := by
    simp only [repBlocks_countP]
    rw [show repBlocks p4chars = (List.range' 1 5).flatMap (fun i =>
      (multiCartesianProduct (List.replicate i p4chars)).filterMap (fun ws =>
        if utf8Len ws.flatten ≤ 5 then some ws.flatten else none)) from rfl]
    rw [sum_map_flatMap]
    refine congrArg List.sum (List.map_congr_left ?_)
    intro i hi
    obtain ⟨t, ht, rfl⟩ := List.mem_range'.mp hi
    obtain ⟨hshape, hlen⟩ := rep_block_shape p4chars (by decide) (1 + 1 * t)
      (by omega) (by omega)
    rw [hshape]
    have hconst : ∀ u ∈ (mcpGo (List.replicate (1 + 1 * t) p4chars)).map List.flatten,
        ((List.range' 1 5).map (fun j =>
          if utf8Len u + j ≤ 5 then 6 ^ j else 0)).sum
          = ((List.range' 1 5).map (fun j =>
              if (1 + 1 * t) + j ≤ 5 then 6 ^ j else 0)).sum := by
      intro u hu
      rw [hlen u hu]
    rw [sum_map_eq_const _ hconst, rep_block_length]
    simp [p4chars]
  rw [hstep]
  decide

theorem repBlocks_mem_one_le (P : List (List Char)) (hP : ∀ w ∈ P, utf8Len w = 1) :
    ∀ u ∈ repBlocks P, 1 ≤ utf8Len u := by
  intro u hu
  unfold repBlocks at hu
  rw [List.mem_flatMap] at hu
  obtain ⟨i, hi, hmem⟩ := hu
  obtain ⟨t, ht, rfl⟩ := List.mem_range'.mp hi
  obtain ⟨hshape, hlen⟩ := rep_block_shape P hP (1 + 1 * t) (by omega) (by omega)
  rw [hshape] at hmem
  rw [hlen u hmem]
  omega

/-- Claim C5 confirmed: expanding `[a-d]+[1-6]+` with `min_length = 2`,
`max_length = 5` and empty dictionary/terms produces exactly
`calculate_total_creations 4 6 (2..=5)` strings — the closed-form sum
over lengths `L` in `[2,5]` of `Σ_{i=1}^{L-1} 4^(L-i) * 6^i` (14568). -/
theorem c5_pattern_count_closed_form :
    ∃ res, regex_words 9 (some ast45) (genOnly 2 5) = .ok res
      ∧ res.length = calculate_total_creations 4 6 2 5 := by
  have hA1 := repBlocks_mem_one_le p4chars (by decide)
  have hB1 := repBlocks_mem_one_le p6chars (by decide)
  have hfil : (concatPairs (repBlocks p4chars) (repBlocks p6chars)).filter
      (fun w => decide ((genOnly 2 5).min_length ≤ utf8Len w))
      = concatPairs (repBlocks p4chars) (repBlocks p6chars) := by
    apply List.filter_eq_self.mpr
    intro s hs
    simp only [decide_eq_true_eq]
    show (genOnly 2 5).min_length ≤ utf8Len s
    unfold concatPairs at hs
    rw [mcp_pair] at hs
    rw [List.mem_filterMap] at hs
    obtain ⟨ws, hws, hF⟩ := hs
    obtain ⟨u, hu, hmap⟩ := List.mem_flatMap.mp hws
    obtain ⟨v, hv, rfl⟩ := List.mem_map.mp hmap
    by_cases hc : (List.map utf8Len [u, v]).sum ≤ 5
    · rw [if_pos hc] at hF
      cases hF
      have hflat : utf8Len ([u, v].flatten) = utf8Len u + utf8Len v := by
        simp [List.flatten, utf8Len_append]
      have h1 := hA1 u hu
      have h2 := hB1 v hv
      show 2 ≤ utf8Len ([u, v].flatten)
      omega
    · rw [if_neg hc] at hF
      cases hF
  refine ⟨concatPairs (repBlocks p4chars) (repBlocks p6chars), ?_, concatPairs_45_length⟩
  simp only [regex_words, walk45_concat]
  rw [hfil]
